import Mathlib

/-!
Verification of the Scan loop operator of src/theano/scan_module/scan_op.py:
the ring-buffer step-execution engine (Scan.execute), the post-loop buffer
reconciliation (rotation, zero-filling, trimming), and the gradient
constructor (Scan.grad).  Every definition below is a shallow embedding of
the corresponding Python code; the line numbers in the doc comments refer
to scan_op.py.
-/

namespace ScanOp

/-- Ring-buffer read of one tap (scan_op.py lines 687-695): the inner
function input slice for tap k of a tracked output is taken from the
output buffer at index (pos + tap) % store_steps.  Python's modulo on a
positive modulus agrees with Int.emod. -/
def ringRead {α : Type} (store : Nat) (buf : List α) (p : Nat) (k : Int) (d : α) : α :=
  buf.getD ((((p : Int) + k) % (store : Int)).toNat) d

/-- Initial position of a tracked output (line 637):
pos[idx] = (-mintaps[idx]) % store_steps[idx]. -/
def posInit (store : Nat) (mintap : Int) : Nat :=
  ((-mintap) % (store : Int)).toNat

/-- Static description of one tracked output channel that writes at the
current position (MIT-SOT / SIT-SOT), together with its compiled inner
step function and the caller-seeded initial buffer contents. -/
structure ChanCfg (α : Type) where
  store_steps : Nat
  taps : List Int
  mintap : Int
  step : List α → α
  dflt : α
  init : List α

/-- One iteration of the main loop for a single tracked output that writes
at the current position: gather the tap reads at (pos + tap) % store_steps
(lines 684-696), invoke the inner function on them, scatter the produced
value at index pos (lines 768-773), advance pos by +1 mod store_steps
(lines 812-813). -/
def chanStep {α : Type} (c : ChanCfg α) (st : List α × Nat) : List α × Nat :=
  (st.1.set st.2 (c.step (c.taps.map (fun k => ringRead c.store_steps st.1 st.2 k c.dflt))),
   (st.2 + 1) % c.store_steps)

/-- Running the main loop for i iterations on one channel, starting from
the caller-seeded initial buffer (lines 640-657) and the initial
position. -/
def chanRun {α : Type} (c : ChanCfg α) : Nat → List α × Nat
  | 0 => (c.init, posInit c.store_steps c.mintap)
  | i + 1 => chanStep c (chanRun c i)

/-- The value the loop writes into the channel buffer during iteration j. -/
def writtenVal {α : Type} (c : ChanCfg α) (j : Nat) : α :=
  c.step (c.taps.map (fun k =>
    ringRead c.store_steps (chanRun c j).1 (chanRun c j).2 k c.dflt))

/-- Closed form of the position counter after i iterations:
(i - mintap) % store_steps. -/
def natPos {α : Type} (c : ChanCfg α) (i : Nat) : Nat :=
  ((((i : Int) - c.mintap) % (c.store_steps : Int)).toNat)

/-- The logical step whose value occupies slot s of the ring buffer after i
iterations: the largest j < i with (j - mintap) % store_steps = s, or a
negative number when slot s has not been written yet. -/
def slotStep {α : Type} (c : ChanCfg α) (i : Nat) (s : Nat) : Int :=
  (i : Int) - 1 - (((i : Int) - 1 - ((s : Int) + c.mintap)) % (c.store_steps : Int))

/-- Intended contents of slot s of the ring buffer after i iterations. -/
def bufSpec {α : Type} (c : ChanCfg α) (i : Nat) (s : Nat) : α :=
  if slotStep c i s < 0 then c.init.getD s c.dflt
  else writtenVal c (slotStep c i s).toNat

theorem emod_nonneg_lt (a : Int) (n : Nat) (hn : 0 < n) :
    0 ≤ a % (n : Int) ∧ a % (n : Int) < n := by
  have hne : (n : Int) ≠ 0 := by exact_mod_cast hn.ne'
  exact ⟨Int.emod_nonneg a hne, Int.emod_lt_of_pos a (by exact_mod_cast hn)⟩

theorem natPos_lt {α : Type} (c : ChanCfg α) (hst : 0 < c.store_steps) (i : Nat) :
    natPos c i < c.store_steps := by
  have h := emod_nonneg_lt ((i : Int) - c.mintap) c.store_steps hst
  unfold natPos
  omega

theorem natPos_cast {α : Type} (c : ChanCfg α) (hst : 0 < c.store_steps) (i : Nat) :
    ((natPos c i : Nat) : Int) = ((i : Int) - c.mintap) % (c.store_steps : Int) := by
  have h := emod_nonneg_lt ((i : Int) - c.mintap) c.store_steps hst
  unfold natPos
  exact Int.toNat_of_nonneg h.1

theorem natPos_zero {α : Type} (c : ChanCfg α) :
    natPos c 0 = posInit c.store_steps c.mintap := by
  unfold natPos posInit
  norm_num

theorem natPos_succ {α : Type} (c : ChanCfg α) (hst : 0 < c.store_steps) (i : Nat) :
    natPos c (i + 1) = (natPos c i + 1) % c.store_steps := by
  have hbnd := emod_nonneg_lt ((i : Int) - c.mintap) c.store_steps hst
  have h1 : ((i + 1 : Nat) : Int) - c.mintap = (((i : Int) - c.mintap) % (c.store_steps : Int)) % (c.store_steps : Int) + (((i : Int) - c.mintap) - ((i : Int) - c.mintap) % (c.store_steps : Int)) + 1 := by
    rw [Int.emod_emod_of_dvd _ (dvd_refl _)]
    push_cast
    ring
  have h2 : (((i + 1 : Nat) : Int) - c.mintap) % (c.store_steps : Int)
      = (((i : Int) - c.mintap) % (c.store_steps : Int) + 1) % (c.store_steps : Int) := by
    rw [h1]
    have hdvd : ((c.store_steps : Int)) ∣ (((i : Int) - c.mintap) - ((i : Int) - c.mintap) % (c.store_steps : Int)) := Int.dvd_sub_of_emod_eq rfl
    obtain ⟨m, hm⟩ := hdvd
    rw [Int.emod_emod_of_dvd _ (dvd_refl _), hm]
    rw [show (((i : Int) - c.mintap) % (c.store_steps : Int) + (c.store_steps : Int) * m + 1)
        = (((i : Int) - c.mintap) % (c.store_steps : Int) + 1 + m * (c.store_steps : Int)) by ring]
    exact Int.add_mul_emod_self
  set r : Int := ((i : Int) - c.mintap) % (c.store_steps : Int) with hr
  unfold natPos
  rw [h2]
  rcases eq_or_lt_of_le (show r + 1 ≤ (c.store_steps : Int) by omega) with heq | hlt
  · rw [heq, Int.emod_self]
    have : r.toNat + 1 = c.store_steps := by omega
    simp [this]
  · rw [Int.emod_eq_of_lt (by omega) hlt]
    have : r.toNat + 1 < c.store_steps := by omega
    rw [Nat.mod_eq_of_lt this]
    omega

theorem emod_eq_of_sub_dvd (a b : Int) (n : Nat) (_hn : 0 < n)
    (hd : (n : Int) ∣ (a - b)) (hb : 0 ≤ b) (hb2 : b < n) : a % (n : Int) = b := by
  obtain ⟨m, hm⟩ := hd
  have ha : a = b + m * (n : Int) := by linarith
  rw [ha, Int.add_mul_emod_self, Int.emod_eq_of_lt hb hb2]

theorem slotStep_succ_self {α : Type} (c : ChanCfg α) (hst : 0 < c.store_steps) (i : Nat) :
    slotStep c (i + 1) (natPos c i) = (i : Int) := by
  unfold slotStep
  have h0 : ((i + 1 : Nat) : Int) - 1 - (((natPos c i : Nat) : Int) + c.mintap)
      = ((i : Int) - c.mintap) - ((i : Int) - c.mintap) % (c.store_steps : Int) := by
    rw [natPos_cast c hst i]; push_cast; ring
  rw [h0, emod_eq_of_sub_dvd _ 0 _ hst (by
        rw [sub_zero]
        exact Int.dvd_sub_of_emod_eq rfl)
      le_rfl (by exact_mod_cast hst)]
  push_cast
  ring

theorem slotStep_succ_ne {α : Type} (c : ChanCfg α) (hst : 0 < c.store_steps)
    (i : Nat) (s : Nat) (hs : s < c.store_steps) (hne : s ≠ natPos c i) :
    slotStep c (i + 1) s = slotStep c i s := by
  have hbnd := emod_nonneg_lt ((i : Int) - 1 - ((s : Int) + c.mintap)) c.store_steps hst
  set r : Int := ((i : Int) - 1 - ((s : Int) + c.mintap)) % (c.store_steps : Int) with hr
  have hb : ((i + 1 : Nat) : Int) - 1 - ((s : Int) + c.mintap)
      = ((i : Int) - 1 - ((s : Int) + c.mintap)) + 1 := by push_cast; ring
  have hdvd : ((c.store_steps : Int)) ∣ (((i : Int) - 1 - ((s : Int) + c.mintap)) - r) :=
    Int.dvd_sub_of_emod_eq rfl
  rcases eq_or_lt_of_le (show r + 1 ≤ (c.store_steps : Int) by omega) with heq | hlt
  · exfalso
    have hz : (((i : Int) - 1 - ((s : Int) + c.mintap)) + 1) % (c.store_steps : Int) = 0 := by
      apply emod_eq_of_sub_dvd _ _ _ hst _ le_rfl (by exact_mod_cast hst)
      obtain ⟨m, hm⟩ := hdvd
      exact ⟨m + 1, by rw [mul_add, mul_one]; linarith⟩
    have hsval : ((i : Int) - c.mintap) % (c.store_steps : Int) = (s : Int) := by
      apply emod_eq_of_sub_dvd _ _ _ hst _ (by exact_mod_cast Nat.zero_le s)
        (by exact_mod_cast hs)
      have := Int.dvd_sub_of_emod_eq hz
      obtain ⟨m, hm⟩ := this
      exact ⟨m, by linarith⟩
    apply hne
    have : ((natPos c i : Nat) : Int) = (s : Int) := by rw [natPos_cast c hst i, hsval]
    exact_mod_cast this.symm
  · unfold slotStep
    rw [hb, emod_eq_of_sub_dvd (((i : Int) - 1 - ((s : Int) + c.mintap)) + 1) (r + 1) _ hst
        (by obtain ⟨m, hm⟩ := hdvd; exact ⟨m, by linarith⟩) (by omega) hlt]
    push_cast
    ring

theorem read_slot {α : Type} (c : ChanCfg α) (hst : 0 < c.store_steps)
    (hcap : (-c.mintap).toNat ≤ c.store_steps)
    (i : Nat) (k : Int) (hk1 : c.mintap ≤ k) (hk2 : k < 0) :
    ((((natPos c i : Nat) : Int) + k) % (c.store_steps : Int)).toNat < c.store_steps ∧
    slotStep c i (((((natPos c i : Nat) : Int) + k) % (c.store_steps : Int)).toNat)
      = (i : Int) + k ∧
    ((i : Int) + k < 0 →
      ((((((natPos c i : Nat) : Int) + k) % (c.store_steps : Int)).toNat : Int))
        = (i : Int) + k - c.mintap) := by
  have hmt : -c.mintap ≤ (c.store_steps : Int) := by omega
  have hbnd := emod_nonneg_lt (((natPos c i : Nat) : Int) + k) c.store_steps hst
  have htcast : (((((((natPos c i : Nat) : Int) + k) % (c.store_steps : Int)).toNat) : Nat) : Int)
      = ((((natPos c i : Nat) : Int) + k) % (c.store_steps : Int)) :=
    Int.toNat_of_nonneg hbnd.1
  have hteq : ((((natPos c i : Nat) : Int) + k) % (c.store_steps : Int))
      = ((i : Int) + k - c.mintap) % (c.store_steps : Int) := by
    rw [natPos_cast c hst i, Int.emod_add_emod]
    ring_nf
  refine ⟨by omega, ?_, ?_⟩
  · unfold slotStep
    set t : Nat := (((((natPos c i : Nat) : Int) + k) % (c.store_steps : Int)).toNat) with ht
    have hcong : ((c.store_steps : Int)) ∣ (((i : Int) + k - c.mintap) - (t : Int)) :=
      Int.dvd_sub_of_emod_eq ((htcast.trans hteq).symm)
    have hb : ((i : Int) - 1 - ((t : Int) + c.mintap)) % (c.store_steps : Int) = -1 - k := by
      apply emod_eq_of_sub_dvd _ _ _ hst _ (by omega) (by omega)
      obtain ⟨m, hm⟩ := hcong
      exact ⟨m, by linarith⟩
    rw [hb]
    ring
  · intro hik
    rw [htcast, hteq]
    exact Int.emod_eq_of_lt (by omega) (by omega)

theorem chanStep_run {α : Type} (c : ChanCfg α) (i : Nat) :
    chanRun c (i + 1)
      = ((chanRun c i).1.set (chanRun c i).2 (writtenVal c i),
         ((chanRun c i).2 + 1) % c.store_steps) := rfl

theorem chanRun_inv {α : Type} (c : ChanCfg α)
    (hst : 0 < c.store_steps) (hlen : c.init.length = c.store_steps) (i : Nat) :
    (chanRun c i).1.length = c.store_steps ∧
    (chanRun c i).2 = natPos c i ∧
    ∀ s, s < c.store_steps → (chanRun c i).1.getD s c.dflt = bufSpec c i s := by
  induction i with
  | zero =>
    refine ⟨hlen, (natPos_zero c).symm, ?_⟩
    intro s hs
    unfold bufSpec
    have hneg : slotStep c 0 s < 0 := by
      have hbnd := emod_nonneg_lt ((-1 : Int) - ((s : Int) + c.mintap)) c.store_steps hst
      unfold slotStep
      push_cast
      push_cast at hbnd
      omega
    rw [if_pos hneg]
    rfl
  | succ n ih =>
    obtain ⟨ihlen, ihpos, ihbuf⟩ := ih
    rw [chanStep_run]
    refine ⟨by simpa using ihlen, ?_, ?_⟩
    · simpa [ihpos] using (natPos_succ c hst n).symm
    · intro s hs
      by_cases hcase : s = (chanRun c n).2
      · subst hcase
        show ((chanRun c n).1.set (chanRun c n).2 (writtenVal c n)).getD (chanRun c n).2 c.dflt
            = bufSpec c (n + 1) (chanRun c n).2
        rw [List.getD_eq_getElem?_getD,
            List.getElem?_set_self (by rw [ihlen]; exact hs)]
        unfold bufSpec
        rw [ihpos, slotStep_succ_self c hst n]
        rw [if_neg (by omega)]
        simp
      · show ((chanRun c n).1.set (chanRun c n).2 (writtenVal c n)).getD s c.dflt
            = bufSpec c (n + 1) s
        rw [List.getD_eq_getElem?_getD,
            List.getElem?_set_ne (fun hEq => hcase hEq.symm),
            ← List.getD_eq_getElem?_getD, ihbuf s hs]
        unfold bufSpec
        rw [slotStep_succ_ne c hst n s hs (by rw [← ihpos]; exact hcase)]

/-- C1: for every tap-bearing output channel that writes at the current
position, the position counter is initialized to (-min_tap) % store_steps
and advanced by +1 % store_steps after each iteration — its closed form
after i iterations is (i - min_tap) % store_steps — and the tap read at
(position + tap) % store_steps during iteration i yields the value the
loop wrote at iteration i + tap, or the caller-seeded initial history
value when i + tap < 0. -/
theorem tap_read_resolves {α : Type} (c : ChanCfg α) (h : Int → α)
    (hst : 0 < c.store_steps)
    (hlen : c.init.length = c.store_steps)
    (hcap : (-c.mintap).toNat ≤ c.store_steps)
    (htap : ∀ k ∈ c.taps, c.mintap ≤ k ∧ k < 0)
    (hseed : ∀ s : Nat, (s : Int) < -c.mintap →
      c.init.getD s c.dflt = h ((s : Int) + c.mintap))
    (i : Nat) (k : Int) (hk : k ∈ c.taps) :
    (chanRun c i).2 = (((i : Int) - c.mintap) % (c.store_steps : Int)).toNat ∧
    ringRead c.store_steps (chanRun c i).1 (chanRun c i).2 k c.dflt =
      if (i : Int) + k < 0 then h ((i : Int) + k)
      else writtenVal c (((i : Int) + k).toNat) := by
  obtain ⟨hlen', hpos, hbuf⟩ := chanRun_inv c hst hlen i
  obtain ⟨hk1, hk2⟩ := htap k hk
  obtain ⟨ht1, ht2, ht3⟩ := read_slot c hst hcap i k hk1 hk2
  have hposN : (chanRun c i).2 = natPos c i := hpos
  refine ⟨hpos, ?_⟩
  unfold ringRead
  rw [hposN]
  rw [natPos_cast c hst i] at ht1 ht2 ht3 ⊢
  rw [show ((((i : Int) - c.mintap) % (c.store_steps : Int)) : Int)
      = ((natPos c i : Nat) : Int) from (natPos_cast c hst i).symm] at ht1 ht2 ht3 ⊢
  rw [hbuf _ ht1]
  unfold bufSpec
  rw [ht2]
  by_cases hik : (i : Int) + k < 0
  · rw [if_pos hik, if_pos hik]
    have ht := ht3 hik
    rw [hseed _ (by omega)]
    congr 1
    omega
  · rw [if_neg (by omega), if_neg hik]

/-- Concrete channel used to witness C1: a SIT-SOT channel of buffer
length 2, single tap -1, inner function adding one to the read value. -/
def wCfg : ChanCfg Int :=
  ⟨2, [-1], -1, fun l => l.getD 0 0 + 1, 0, [5, 99]⟩

/-- Concrete initial-history valuation used to witness C1. -/
def wH : Int → Int := fun _ => 5

theorem tap_read_resolves_witness :
    (chanRun wCfg 3).2 = ((((3 : Nat) : Int) - wCfg.mintap) % (wCfg.store_steps : Int)).toNat ∧
    ringRead wCfg.store_steps (chanRun wCfg 3).1 (chanRun wCfg 3).2 (-1) wCfg.dflt =
      if ((3 : Nat) : Int) + (-1) < 0 then wH (((3 : Nat) : Int) + (-1))
      else writtenVal wCfg ((((3 : Nat) : Int) + (-1)).toNat) :=
  tap_read_resolves wCfg wH (by decide) (by decide) (by decide) (by decide)
    (fun s hs => by
      have hs' : (s : Int) < 1 := hs
      have h0 : s = 0 := by omega
      subst h0
      rfl)
    3 (-1) (by decide)

/-- Error kinds raised by the INIT phase of Scan.execute. -/
inductive ScanErr where
  | seqTooShort : ScanErr
  | zeroDivision : ScanErr
deriving DecidableEq

/-- Step 1 of Scan.execute (lines 602-622): read n_steps; when it is
negative replace it by its absolute value and reverse every plain
sequence with seq[::-1]; raise ValueError when any sequence has fewer
entries along its leading dimension than the required number of steps. -/
def setupSeqs {α : Type} (n_steps : Int) (seqs : List (List α)) :
    Except ScanErr (Nat × List (List α)) :=
  if seqs.all (fun s => n_steps.natAbs ≤ s.length) then
    if n_steps < 0 then .ok (n_steps.natAbs, seqs.map List.reverse)
    else .ok (n_steps.natAbs, seqs)
  else .error ScanErr.seqTooShort

/-- The slice of plain sequence idx gathered at iteration i of the main
loop (lines 677-682): seqs[idx][i] on the prepared sequence list. -/
def seqAt {α : Type} (seqs : List (List α)) (idx i : Nat) (d : α) : α :=
  (seqs.getD idx []).getD i d

/-- C2 counterexample: with n_steps = -2 and the length-3 sequence
[10, 20, 30], iteration 0 of the loop reads 30 — directly through the
sequence list setupSeqs prepares — while a forward run of 2 steps reads
20 at iteration 2 - 1 - 0 = 1; the code reverses the whole sequence
(seq[::-1]) instead of the first |n_steps| entries. -/
theorem seq_reversal_counterexample :
    setupSeqs (-2) [[(10 : Int), 20, 30]] = .ok (2, [[30, 20, 10]]) ∧
    setupSeqs 2 [[(10 : Int), 20, 30]] = .ok (2, [[10, 20, 30]]) ∧
    Except.map (fun p => seqAt p.2 0 0 0)
      (setupSeqs (-2) [[(10 : Int), 20, 30]]) = .ok 30 ∧
    Except.map (fun p => seqAt p.2 0 (2 - 1 - 0) 0)
      (setupSeqs 2 [[(10 : Int), 20, 30]]) = .ok 20 ∧
    (30 : Int) ≠ 20 :=
  ⟨rfl, rfl, rfl, rfl, by decide⟩

/-- Buffer lengths assembled at loop start (lines 629-635): the
leading-dimension length of every tap-output initial-state argument,
followed by the NIT-SOT trip-count arguments, which become buffer lengths
without any validation against n_steps. -/
def storeStepsOf {α : Type} (tapInits : List (List α)) (nitLens : List Nat) : List Nat :=
  tapInits.map List.length ++ nitLens

/-- INIT phase of Scan.execute (lines 602-638): validate plain-sequence
lengths (reversing sequences on negative n_steps), assemble store_steps,
and compute every initial position (-mintaps[idx]) % store_steps[idx].
A zero buffer length faults here, because Python's modulo by zero raises
ZeroDivisionError; no NIT-SOT trip-count argument is compared against the
number of steps. -/
def scanInit {α : Type} (n_steps : Int) (seqs : List (List α))
    (tapInits : List (List α)) (nitLens : List Nat) (mintaps : List Int) :
    Except ScanErr (Nat × List (List α) × List Nat × List Nat) :=
  match setupSeqs n_steps seqs with
  | .error e => .error e
  | .ok (n, ss) =>
    if 0 ∈ storeStepsOf tapInits nitLens then .error ScanErr.zeroDivision
    else .ok (n, ss, storeStepsOf tapInits nitLens,
      (List.range (storeStepsOf tapInits nitLens).length).map
        (fun idx => posInit ((storeStepsOf tapInits nitLens).getD idx 0)
          (mintaps.getD idx 0)))

/-- The Step Executor enters the main loop (lines 669-814, abstracted
here as runLoop) only when the INIT phase succeeded. -/
def executeScan {α β : Type} (n_steps : Int) (seqs : List (List α))
    (tapInits : List (List α)) (nitLens : List Nat) (mintaps : List Int)
    (runLoop : Nat × List (List α) × List Nat × List Nat → β) : Except ScanErr β :=
  (scanInit n_steps seqs tapInits nitLens mintaps).map runLoop

/-- C8 counterexample: a NIT-SOT trip-count argument of 1 with
n_steps = 5 raises no error at loop start — the INIT phase succeeds and
simply records a ring buffer of length 1. -/
theorem nit_sot_trip_count_unchecked :
    (1 : Nat) < (5 : Int).natAbs ∧
    scanInit 5 ([] : List (List Int)) [] [1] [] = .ok (5, [], [1], [0]) :=
  ⟨by decide, rfl⟩

/-- C8 (amended): at loop start, before any iteration, the executor
raises an error when some plain sequence provides fewer than |n_steps|
entries, and the main loop then never runs (the result does not depend on
the loop body); when all sequences are long enough and no buffer length
is zero the INIT phase succeeds whatever the NIT-SOT trip-count
arguments are — they are not validated against the step count. -/
theorem init_length_validation {α β : Type} (n_steps : Int) (seqs : List (List α))
    (tapInits : List (List α)) (nitLens : List Nat) (mintaps : List Int)
    (runLoop : Nat × List (List α) × List Nat × List Nat → β) :
    ((∃ s ∈ seqs, s.length < n_steps.natAbs) →
      executeScan n_steps seqs tapInits nitLens mintaps runLoop
        = .error ScanErr.seqTooShort) ∧
    ((∀ s ∈ seqs, n_steps.natAbs ≤ s.length) → 0 ∉ storeStepsOf tapInits nitLens →
      executeScan n_steps seqs tapInits nitLens mintaps runLoop
        = .ok (runLoop (n_steps.natAbs,
            (if n_steps < 0 then seqs.map List.reverse else seqs),
            storeStepsOf tapInits nitLens,
            (List.range (storeStepsOf tapInits nitLens).length).map
              (fun idx => posInit ((storeStepsOf tapInits nitLens).getD idx 0)
                (mintaps.getD idx 0))))) := by
  constructor
  · intro hshort
    obtain ⟨s, hs, hlt⟩ := hshort
    have hall : ¬ (seqs.all (fun s => n_steps.natAbs ≤ s.length)) := by
      simp only [List.all_eq_true, decide_eq_true_eq, not_forall]
      exact ⟨s, hs, by omega⟩
    unfold executeScan scanInit setupSeqs
    rw [if_neg hall]
    rfl
  · intro hlong hzero
    have hall : seqs.all (fun s => n_steps.natAbs ≤ s.length) := by
      simp only [List.all_eq_true, decide_eq_true_eq]
      exact hlong
    unfold executeScan scanInit setupSeqs
    rw [if_pos hall]
    by_cases hneg : n_steps < 0
    · rw [if_pos hneg]
      show Except.map runLoop (if 0 ∈ storeStepsOf tapInits nitLens then _ else _) = _
      rw [if_neg hzero, if_pos hneg]
      rfl
    · rw [if_neg hneg]
      show Except.map runLoop (if 0 ∈ storeStepsOf tapInits nitLens then _ else _) = _
      rw [if_neg hzero, if_neg hneg]
      rfl

theorem init_length_validation_witness :
    executeScan (3 : Int) [[(1 : Int)]] [] [] []
        (fun st => st.1) = .error ScanErr.seqTooShort ∧
    executeScan (5 : Int) ([] : List (List Int)) [] [1] []
        (fun st => st.1) = .ok 5 := by
  constructor
  · exact (init_length_validation 3 [[(1 : Int)]] [] [] [] (fun st => st.1)).1
      ⟨[(1 : Int)], by decide, by decide⟩
  · exact (init_length_validation 5 ([] : List (List Int)) [] [1] [] (fun st => st.1)).2
      (by intro s hs; cases hs) (by decide)

/-- In-place slice assignment buf[start : start + vals.length] = vals,
with the right-hand side read out before the assignment. -/
def sliceAssign {α : Type} (buf : List α) (start : Nat) (vals : List α) : List α :=
  buf.take start ++ vals ++ buf.drop (start + vals.length)

/-- Post-loop rotation of a wrapped ring buffer (lines 824-848): stage one
part of the buffer through a temporary and swap the two halves split at
the final position pdx; the branch on pdx < store_steps // 2 decides
which half goes through the temporary. -/
def rotateBuf {α : Type} (store pdx : Nat) (buf : List α) : List α :=
  if pdx < store / 2 then
    sliceAssign (sliceAssign buf 0 ((buf.drop pdx).take (store - pdx)))
      (store - pdx) (buf.take pdx)
  else
    sliceAssign (sliceAssign buf (store - pdx) (buf.take pdx))
      0 ((buf.drop pdx).take (store - pdx))

/-- Length of the temporary staged by the rotation (lines 826 and 838):
the first pdx entries when pdx < store_steps // 2, the last
store_steps - pdx entries otherwise. -/
def rotateTmpLen (store pdx : Nat) : Nat :=
  if pdx < store / 2 then pdx else store - pdx

/-- Zero-filling of the unexecuted tail (line 854):
outs[idx][0][m:] = 0. -/
def zeroFillFrom {α : Type} (buf : List α) (m : Nat) (zero : α) : List α :=
  buf.take m ++ List.replicate (buf.length - m) zero

/-- Post-loop reconciliation of one tracked output after the MIT-MOT
block (lines 819-873): when the ring wrapped
(store_steps < i - mintap, final position inside the buffer) rotate it
left by the final position; when store_steps > i - mintap zero-fill the
tail from index i - mintap and, when the loop stopped early
(i < n_steps), additionally drop the last n_steps - i entries; otherwise
return the buffer unchanged. -/
def finalizeBuf {α : Type} (store : Nat) (mintap : Int) (n_steps i : Nat)
    (pos : Nat) (buf : List α) (zero : α) : List α :=
  if (store : Int) < (i : Int) - mintap ∧ pos < store then
    rotateBuf store pos buf
  else if (i : Int) - mintap < (store : Int) then
    let b := zeroFillFrom buf (((i : Int) - mintap).toNat) zero
    if i < n_steps then b.take (b.length - (n_steps - i)) else b
  else buf

theorem zeroFillFrom_length {α : Type} (buf : List α) (m : Nat) (zero : α) :
    (zeroFillFrom buf m zero).length = buf.length := by
  unfold zeroFillFrom
  rw [List.length_append, List.length_take, List.length_replicate]
  omega

theorem zeroFillFrom_getD {α : Type} (buf : List α) (m : Nat) (zero : α)
    (j : Nat) (hj : j < buf.length) :
    (zeroFillFrom buf m zero).getD j zero
      = if j < m then buf.getD j zero else zero := by
  unfold zeroFillFrom
  rw [List.getD_eq_getElem?_getD, List.getElem?_append, List.length_take]
  by_cases hjm : j < m
  · rw [if_pos (by omega), List.getElem?_take, if_pos hjm,
        ← List.getD_eq_getElem?_getD, if_pos hjm]
  · by_cases hmlen : m ≤ buf.length
    · rw [if_neg (by omega), List.getElem?_replicate, if_pos (by omega)]
      rw [if_neg hjm]
      rfl
    · omega

/-- C3: when store_steps exceeds i - mintap (the loop stopped before
filling the buffer), every entry from index i - mintap onward is set to
zero and, when i < n_steps, the last n_steps - i entries are dropped, so
the surviving entries are the untouched prefix followed by trailing
zeros up to the effective length store_steps - (n_steps - i). -/
theorem early_stop_zero_fill {α : Type} (store : Nat) (mintap : Int)
    (n_steps i pos : Nat) (buf : List α) (zero : α)
    (hlen : buf.length = store)
    (hmt : mintap ≤ 0)
    (hgt : (i : Int) - mintap < (store : Int))
    (hin : i ≤ n_steps) :
    (finalizeBuf store mintap n_steps i pos buf zero).length
      = store - (n_steps - i) ∧
    ∀ j, j < store - (n_steps - i) →
      (finalizeBuf store mintap n_steps i pos buf zero).getD j zero
        = if j < ((i : Int) - mintap).toNat then buf.getD j zero else zero := by
  unfold finalizeBuf
  rw [if_neg (by rintro ⟨h1, _⟩; omega), if_pos hgt]
  have hblen : (zeroFillFrom buf (((i : Int) - mintap).toNat) zero).length = store := by
    rw [zeroFillFrom_length, hlen]
  by_cases hlt : i < n_steps
  · rw [if_pos hlt]
    constructor
    · rw [List.length_take, hblen]
      omega
    · intro j hj
      rw [List.getD_eq_getElem?_getD, List.getElem?_take, if_pos (by omega),
          ← List.getD_eq_getElem?_getD]
      exact zeroFillFrom_getD buf _ zero j (by omega)
  · rw [if_neg hlt]
    have hni : n_steps - i = 0 := by omega
    refine ⟨by rw [hblen]; omega, ?_⟩
    intro j hj
    exact zeroFillFrom_getD buf _ zero j (by omega)

theorem early_stop_zero_fill_witness :
    (finalizeBuf 5 (-1) 3 2 3 [(1 : Int), 2, 3, 4, 5] 0).length = 5 - (3 - 2) ∧
    (finalizeBuf 5 (-1) 3 2 3 [(1 : Int), 2, 3, 4, 5] 0).getD 3 0
      = if 3 < (((2 : Nat) : Int) - (-1)).toNat then [(1 : Int), 2, 3, 4, 5].getD 3 0
        else 0 := by
  have h := early_stop_zero_fill 5 (-1) 3 2 3 [(1 : Int), 2, 3, 4, 5] 0
    (by decide) (by decide) (by decide) (by decide)
  exact ⟨h.1, h.2 3 (by decide)⟩

/-- C4 counterexample: with store_steps = 3 and final position 1 the code
takes the second branch (1 < 3 // 2 is false) and stages the half of
length 3 - 1 = 2 through the temporary, although the other half, of
length 1, is smaller. -/
theorem rotation_small_half_counterexample :
    ¬ (1 < 3 / 2) ∧ rotateTmpLen 3 1 = 2 ∧ min 1 (3 - 1) = 1 ∧ (2 : Nat) ≠ 1 := by
  decide

/-- C4 (amended): when the ring wrapped, the buffer is rotated left by the
final position, so slot 0 holds the entry that was at the final position
(the oldest retained value), and the result is a permutation of the
pre-rotation contents; the temporary stages the first pdx entries when
pdx < store_steps // 2 and the last store_steps - pdx entries otherwise —
the smaller of the two halves except when store_steps is odd and
pdx = store_steps // 2, where the larger half is staged. -/
theorem rotation_linearizes {α : Type} (buf : List α) (store pdx : Nat) (d : α)
    (hlen : buf.length = store) (hp : pdx < store) :
    rotateBuf store pdx buf = buf.rotate pdx ∧
    (rotateBuf store pdx buf).getD 0 d = buf.getD pdx d ∧
    List.Perm (rotateBuf store pdx buf) buf ∧
    (¬ (store % 2 = 1 ∧ pdx = store / 2) →
      rotateTmpLen store pdx = min pdx (store - pdx)) := by
  have hvals : (buf.drop pdx).take (store - pdx) = buf.drop pdx :=
    List.take_of_length_le (by rw [List.length_drop, hlen])
  have hdlen : (buf.drop pdx).length = store - pdx := by
    rw [List.length_drop, hlen]
  have htlen : (buf.take pdx).length = pdx := by
    rw [List.length_take]
    omega
  have hinner1 : sliceAssign buf 0 (buf.drop pdx)
      = buf.drop pdx ++ buf.drop (store - pdx) := by
    unfold sliceAssign
    rw [List.take_zero, List.nil_append, Nat.zero_add, hdlen]
  have hnil1 : (buf.drop pdx ++ buf.drop (store - pdx)).drop (store - pdx + pdx) = [] :=
    List.drop_eq_nil_of_le (by
      rw [List.length_append, List.length_drop, List.length_drop, hlen]
      omega)
  have houter1 : sliceAssign (buf.drop pdx ++ buf.drop (store - pdx))
      (store - pdx) (buf.take pdx) = buf.drop pdx ++ buf.take pdx := by
    unfold sliceAssign
    rw [htlen]
    rw [List.take_append_of_le_length (le_of_eq hdlen.symm)]
    rw [hvals]
    rw [hnil1]
    rw [List.append_nil]
  have hinner2 : sliceAssign buf (store - pdx) (buf.take pdx)
      = buf.take (store - pdx) ++ buf.take pdx := by
    unfold sliceAssign
    rw [htlen, List.drop_eq_nil_of_le (by rw [hlen]; omega), List.append_nil]
  have hd2 : (buf.take (store - pdx) ++ buf.take pdx).drop (store - pdx)
      = buf.take pdx := by
    rw [List.drop_append_of_le_length (by rw [List.length_take]; omega)]
    rw [List.drop_eq_nil_of_le
      (show (buf.take (store - pdx)).length ≤ store - pdx by
        rw [List.length_take]; omega)]
    rw [List.nil_append]
  have houter2 : sliceAssign (buf.take (store - pdx) ++ buf.take pdx)
      0 (buf.drop pdx) = buf.drop pdx ++ buf.take pdx := by
    unfold sliceAssign
    rw [List.take_zero, List.nil_append, Nat.zero_add, hdlen, hd2]
  have hmain : rotateBuf store pdx buf = buf.drop pdx ++ buf.take pdx := by
    unfold rotateBuf
    rw [hvals]
    by_cases hbr : pdx < store / 2
    · rw [if_pos hbr, hinner1, houter1]
    · rw [if_neg hbr, hinner2, houter2]
  have hrot : buf.rotate pdx = buf.drop pdx ++ buf.take pdx :=
    List.rotate_eq_drop_append_take (by omega)
  refine ⟨by rw [hmain, hrot], ?_, ?_, ?_⟩
  · rw [hmain, List.getD_eq_getElem?_getD, List.getElem?_append,
        if_pos (by rw [hdlen]; omega), List.getElem?_drop,
        Nat.add_zero, ← List.getD_eq_getElem?_getD]
  · rw [hmain, ← hrot]
    exact List.rotate_perm buf pdx
  · intro hodd
    unfold rotateTmpLen
    by_cases hbr : pdx < store / 2
    · rw [if_pos hbr]
      omega
    · rw [if_neg hbr]
      by_cases heq : pdx = store / 2
      · have hmod : store % 2 ≠ 1 := fun hh => hodd ⟨hh, heq⟩
        omega
      · omega

theorem rotation_linearizes_witness :
    rotateBuf 5 2 [(10 : Int), 20, 30, 40, 50]
      = [(10 : Int), 20, 30, 40, 50].rotate 2 ∧
    (rotateBuf 5 2 [(10 : Int), 20, 30, 40, 50]).getD 0 0
      = [(10 : Int), 20, 30, 40, 50].getD 2 0 ∧
    List.Perm (rotateBuf 5 2 [(10 : Int), 20, 30, 40, 50])
      [(10 : Int), 20, 30, 40, 50] ∧
    (¬ (5 % 2 = 1 ∧ 2 = 5 / 2) → rotateTmpLen 5 2 = min 2 (5 - 2)) :=
  rotation_linearizes [(10 : Int), 20, 30, 40, 50] 5 2 0 (by decide) (by decide)

/-- MIT-MOT scatter for one output (lines 757-761): each declared write
slice k stores the next inner-function output value at the absolute
buffer index k + pos — no modulo by store_steps is applied. -/
def scatterChan {α : Type} (buf : List α) (p : Nat) :
    List Int → List α → List α
  | [], _ => buf
  | _ :: _, [] => buf
  | k :: ks, v :: vs => scatterChan (buf.set ((((p : Int) + k).toNat)) v) p ks vs

/-- Post-loop reconciliation pass (lines 816-822): the rotation,
zero-filling and trimming loop runs only over output indices in
[n_mit_mot, n_outs + n_nit_sot); f is the per-buffer reconciliation. -/
def postLoopPass {α : Type} (n_mit_mot n_outs_nit : Nat)
    (f : Nat → List α → List α) (bufs : List (List α)) : List (List α) :=
  (List.range bufs.length).map (fun idx =>
    if n_mit_mot ≤ idx ∧ idx < n_outs_nit then f idx (bufs.getD idx [])
    else bufs.getD idx [])

theorem scatterChan_getD_not_mem {α : Type} (p : Nat) (ks : List Int) :
    ∀ (buf vs : List α) (d : α) (m : Nat),
      (∀ k ∈ ks, 0 ≤ (p : Int) + k) →
      (m : Int) ∉ ks.map (fun k => (p : Int) + k) →
      (scatterChan buf p ks vs).getD m d = buf.getD m d := by
  induction ks with
  | nil =>
    intro buf vs d m _ _
    cases vs <;> rfl
  | cons k ks ih =>
    intro buf vs d m hpos hm
    cases vs with
    | nil => rfl
    | cons v vs =>
      simp only [List.map_cons, List.mem_cons, not_or] at hm
      obtain ⟨hm1, hm2⟩ := hm
      show (scatterChan (buf.set ((((p : Int) + k).toNat)) v) p ks vs).getD m d
          = buf.getD m d
      rw [ih _ _ _ _ (fun k' hk' => hpos k' (List.mem_cons_of_mem k hk')) hm2]
      rw [List.getD_eq_getElem?_getD, List.getD_eq_getElem?_getD,
          List.getElem?_set_ne (fun hEq => hm1 (by
            rw [← hEq, Int.toNat_of_nonneg (hpos k (List.mem_cons_self k ks))]))]

theorem scatterChan_getD_written {α : Type} (p : Nat) (ks : List Int) :
    ∀ (buf vs : List α) (d : α),
      (ks.map (fun k => (p : Int) + k)).Nodup →
      vs.length = ks.length →
      (∀ k ∈ ks, 0 ≤ (p : Int) + k ∧ ((p : Int) + k).toNat < buf.length) →
      ∀ j, j < ks.length →
        (scatterChan buf p ks vs).getD ((((p : Int) + ks.getD j 0).toNat)) d
          = vs.getD j d := by
  induction ks with
  | nil =>
    intro buf vs d _ _ _ j hj
    simp at hj
  | cons k ks ih =>
    intro buf vs d hnd hlen hin j hj
    have hnd1 : ((p : Int) + k) ∉ ks.map (fun k' => (p : Int) + k') :=
      (List.nodup_cons.mp hnd).1
    have hnd2 : (ks.map (fun k' => (p : Int) + k')).Nodup :=
      (List.nodup_cons.mp hnd).2
    cases vs with
    | nil => simp at hlen
    | cons v vs =>
      show (scatterChan (buf.set ((((p : Int) + k).toNat)) v) p ks vs).getD _ d = _
      cases j with
      | zero =>
        simp only [List.getD_cons_zero]
        have hk0 := hin k (List.mem_cons_self k ks)
        have hnotm : (((((p : Int) + k).toNat : Nat)) : Int)
            ∉ ks.map (fun k' => (p : Int) + k') := by
          rw [Int.toNat_of_nonneg hk0.1]
          exact hnd1
        rw [scatterChan_getD_not_mem p ks _ _ _ _
            (fun k' hk' => (hin k' (List.mem_cons_of_mem k hk')).1) hnotm]
        rw [List.getD_eq_getElem?_getD, List.getElem?_set_self hk0.2]
        rfl
      | succ j' =>
        simp only [List.getD_cons_succ]
        apply ih _ _ _ hnd2
          (by simpa using hlen)
          (fun k' hk' => ⟨(hin k' (List.mem_cons_of_mem k hk')).1, by
            rw [List.length_set]
            exact (hin k' (List.mem_cons_of_mem k hk')).2⟩)
        simp only [List.length_cons] at hj
        omega

theorem postLoopPass_keeps_mit_mot {α : Type} (n_mit_mot n_outs_nit : Nat)
    (f : Nat → List α → List α) (bufs : List (List α)) (idx : Nat)
    (hidx : idx < n_mit_mot) (hbidx : idx < bufs.length) :
    (postLoopPass n_mit_mot n_outs_nit f bufs).getD idx [] = bufs.getD idx [] := by
  unfold postLoopPass
  rw [List.getD_eq_getElem?_getD, List.getElem?_map, List.getElem?_range hbidx]
  show (if n_mit_mot ≤ idx ∧ idx < n_outs_nit then f idx (bufs.getD idx [])
    else bufs.getD idx []) = bufs.getD idx []
  rw [if_neg (by omega)]

/-- C9: every declared MIT-MOT write slice k stores its value at the
absolute buffer index pos + k (all other entries unchanged, no modulo
wrapping applied), and the post-loop reconciliation pass returns every
MIT-MOT buffer (index < n_mit_mot) exactly as written, never rotated,
zero-filled or trimmed. -/
theorem mit_mot_absolute_writes {α : Type} (buf : List α) (p : Nat)
    (ks : List Int) (vs : List α) (d : α)
    (hnd : (ks.map (fun k => (p : Int) + k)).Nodup)
    (hlen : vs.length = ks.length)
    (hin : ∀ k ∈ ks, 0 ≤ (p : Int) + k ∧ ((p : Int) + k).toNat < buf.length)
    (n_mit_mot n_outs_nit : Nat) (f : Nat → List α → List α)
    (bufs : List (List α)) (idx : Nat)
    (hidx : idx < n_mit_mot) (hbidx : idx < bufs.length) :
    (∀ j, j < ks.length →
      (scatterChan buf p ks vs).getD ((((p : Int) + ks.getD j 0).toNat)) d
        = vs.getD j d) ∧
    (∀ m : Nat, (m : Int) ∉ ks.map (fun k => (p : Int) + k) →
      (scatterChan buf p ks vs).getD m d = buf.getD m d) ∧
    (postLoopPass n_mit_mot n_outs_nit f bufs).getD idx [] = bufs.getD idx [] :=
  ⟨scatterChan_getD_written p ks buf vs d hnd hlen hin,
   fun m hm => scatterChan_getD_not_mem p ks buf vs d m (fun k hk => (hin k hk).1) hm,
   postLoopPass_keeps_mit_mot n_mit_mot n_outs_nit f bufs idx hidx hbidx⟩

theorem mit_mot_absolute_writes_witness :
    (scatterChan [(0 : Int), 0, 0, 0] 1 [0, 2] [7, 9]).getD
        ((((1 : Nat) : Int) + [(0 : Int), 2].getD 0 0).toNat) 0 = [(7 : Int), 9].getD 0 0 ∧
    (scatterChan [(0 : Int), 0, 0, 0] 1 [0, 2] [7, 9]).getD 0 0
      = [(0 : Int), 0, 0, 0].getD 0 0 ∧
    (postLoopPass 1 3 (fun _ _ => ([] : List Int)) [[5]]).getD 0 []
      = [[(5 : Int)]].getD 0 [] := by
  have h := mit_mot_absolute_writes [(0 : Int), 0, 0, 0] 1 [0, 2] [7, 9] 0
    (by decide) (by decide)
    (by intro k hk; fin_cases hk <;> constructor <;> decide)
    1 3 (fun _ _ => ([] : List Int)) [[5]] 0 (by decide) (by decide)
  exact ⟨h.1 0 (by decide), h.2.1 0 (by decide), h.2.2⟩

/-- Main-loop control flow (lines 669-673, 750-752, 814): starting from
cond = True, run the body while i < n_steps and cond; after each
inner-function invocation the continuation flag becomes
(termination scalar == 0), checked only at the top of the next round, so
the body of the tripping iteration still commits everything and advances
i. stepFn is the entire loop body at iteration i, returning the updated
state and the termination scalar of that iteration. -/
def loopAux {σ : Type} (stepFn : Nat → σ → σ × Int) : Nat → Nat → σ → Nat × σ
  | 0, i, s => (i, s)
  | r + 1, i, s =>
    if (stepFn i s).2 = 0 then loopAux stepFn r (i + 1) (stepFn i s).1
    else (i + 1, (stepFn i s).1)

/-- Running the while-mode loop with budget n_steps from state s0: the
number of executed iterations and the final state. -/
def whileRun {σ : Type} (n_steps : Nat) (stepFn : Nat → σ → σ × Int) (s0 : σ) :
    Nat × σ :=
  loopAux stepFn n_steps 0 s0

/-- State reached by unconditionally committing iterations 0..j-1. -/
def stateAfter {σ : Type} (stepFn : Nat → σ → σ × Int) (s0 : σ) : Nat → σ
  | 0 => s0
  | j + 1 => (stepFn j (stateAfter stepFn s0 j)).1

/-- Termination scalar produced by iteration j. -/
def condAt {σ : Type} (stepFn : Nat → σ → σ × Int) (s0 : σ) (j : Nat) : Int :=
  (stepFn j (stateAfter stepFn s0 j)).2

/-- Number of iterations the while loop executes, starting at count i with
budget r. -/
def refRun {σ : Type} (stepFn : Nat → σ → σ × Int) (s0 : σ) : Nat → Nat → Nat
  | 0, i => i
  | r + 1, i =>
    if condAt stepFn s0 i = 0 then refRun stepFn s0 r (i + 1) else i + 1

theorem refRun_succ {σ : Type} (stepFn : Nat → σ → σ × Int) (s0 : σ) (r i : Nat) :
    refRun stepFn s0 (r + 1) i
      = if condAt stepFn s0 i = 0 then refRun stepFn s0 r (i + 1) else i + 1 := rfl

theorem loopAux_eq {σ : Type} (stepFn : Nat → σ → σ × Int) (s0 : σ) :
    ∀ (r i : Nat), loopAux stepFn r i (stateAfter stepFn s0 i)
      = (refRun stepFn s0 r i, stateAfter stepFn s0 (refRun stepFn s0 r i)) := by
  intro r
  induction r with
  | zero => intro i; rfl
  | succ r ih =>
    intro i
    show (if (stepFn i (stateAfter stepFn s0 i)).2 = 0 then _ else _) = _
    by_cases hc : condAt stepFn s0 i = 0
    · rw [if_pos (show (stepFn i (stateAfter stepFn s0 i)).2 = 0 from hc)]
      show loopAux stepFn r (i + 1) (stateAfter stepFn s0 (i + 1)) = _
      rw [ih (i + 1)]
      show _ = (refRun stepFn s0 (r + 1) i, stateAfter stepFn s0 (refRun stepFn s0 (r + 1) i))
      rw [(refRun_succ stepFn s0 r i).trans (if_pos hc)]
    · rw [if_neg (show ¬ (stepFn i (stateAfter stepFn s0 i)).2 = 0 from hc)]
      rw [(refRun_succ stepFn s0 r i).trans (if_neg hc)]
      rfl

theorem le_refRun {σ : Type} (stepFn : Nat → σ → σ × Int) (s0 : σ) :
    ∀ (r i : Nat), i ≤ refRun stepFn s0 r i := by
  intro r
  induction r with
  | zero => intro i; exact le_rfl
  | succ r ih =>
    intro i
    rw [refRun_succ]
    by_cases hc : condAt stepFn s0 i = 0
    · rw [if_pos hc]
      exact le_trans (by omega) (ih (i + 1))
    · rw [if_neg hc]
      omega

theorem refRun_le {σ : Type} (stepFn : Nat → σ → σ × Int) (s0 : σ) :
    ∀ (r i : Nat), refRun stepFn s0 r i ≤ i + r := by
  intro r
  induction r with
  | zero => intro i; exact le_rfl
  | succ r ih =>
    intro i
    rw [refRun_succ]
    by_cases hc : condAt stepFn s0 i = 0
    · rw [if_pos hc]
      exact le_trans (ih (i + 1)) (by omega)
    · rw [if_neg hc]
      omega

theorem refRun_pos {σ : Type} (stepFn : Nat → σ → σ × Int) (s0 : σ)
    (r i : Nat) (hr : 0 < r) : i + 1 ≤ refRun stepFn s0 r i := by
  obtain ⟨r', rfl⟩ : ∃ r', r = r' + 1 := ⟨r - 1, by omega⟩
  rw [refRun_succ]
  by_cases hc : condAt stepFn s0 i = 0
  · rw [if_pos hc]
    exact le_refRun stepFn s0 r' (i + 1)
  · rw [if_neg hc]

theorem refRun_iff {σ : Type} (stepFn : Nat → σ → σ × Int) (s0 : σ) :
    ∀ (r i t : Nat), i ≤ t →
      (t + 1 < refRun stepFn s0 r i ↔
        (t < refRun stepFn s0 r i ∧ condAt stepFn s0 t = 0 ∧ t + 1 < i + r)) := by
  intro r
  induction r with
  | zero =>
    intro i t hit
    constructor
    · intro h
      exact absurd h (by show ¬ t + 1 < i; omega)
    · rintro ⟨h1, _, _⟩
      exact absurd h1 (by show ¬ t < i; omega)
  | succ r ih =>
    intro i t hit
    by_cases hc : condAt stepFn s0 i = 0
    · have hrw : refRun stepFn s0 (r + 1) i = refRun stepFn s0 r (i + 1) :=
        (refRun_succ stepFn s0 r i).trans (if_pos hc)
      rw [hrw]
      rcases eq_or_lt_of_le hit with heq | hlt
      · subst heq
        have hge := le_refRun stepFn s0 r (i + 1)
        constructor
        · intro h
          refine ⟨by omega, hc, ?_⟩
          have := refRun_le stepFn s0 r (i + 1)
          omega
        · rintro ⟨_, _, hbud⟩
          exact refRun_pos stepFn s0 r (i + 1) (by omega)
      · rw [ih (i + 1) t (by omega)]
        constructor
        · rintro ⟨h1, h2, h3⟩
          exact ⟨h1, h2, by omega⟩
        · rintro ⟨h1, h2, h3⟩
          refine ⟨h1, h2, by omega⟩
    · have hrw : refRun stepFn s0 (r + 1) i = i + 1 :=
        (refRun_succ stepFn s0 r i).trans (if_neg hc)
      rw [hrw]
      constructor
      · intro h
        exact absurd h (by omega)
      · rintro ⟨h1, h2, _⟩
        have : t = i := by omega
        subst this
        exact absurd h2 hc

theorem refRun_all_zero {σ : Type} (stepFn : Nat → σ → σ × Int) (s0 : σ)
    (hcond : ∀ j, condAt stepFn s0 j = 0) :
    ∀ (r i : Nat), refRun stepFn s0 r i = i + r := by
  intro r
  induction r with
  | zero => intro i; rfl
  | succ r ih =>
    intro i
    rw [refRun_succ, if_pos (hcond i), ih (i + 1)]
    omega

/-- C10 counterexample: with n_steps = 1 and an inner function whose
termination scalar is always 0, iteration 0 runs and reports scalar 0,
yet iteration 1 never runs — the loop stops because the step budget is
exhausted, so a zero scalar alone does not imply another iteration. -/
theorem while_budget_counterexample :
    condAt (fun _ (s : Int) => (s, 0)) 0 0 = 0 ∧
    (whileRun 1 (fun _ (s : Int) => (s, 0)) 0).1 = 1 ∧
    ¬ (1 < (whileRun 1 (fun _ (s : Int) => (s, 0)) 0).1) :=
  ⟨rfl, rfl, by decide⟩

/-- C10 (amended): the while loop executes at most n_steps iterations;
its final state is exactly the state after committing every executed
iteration (the tripping iteration included: all its writes land and the
counter advances); iteration 0 runs iff the budget is positive; and
iteration t + 1 runs iff iteration t ran, iteration t produced
termination scalar 0, and the n_steps budget is not yet exhausted — in
particular no iteration runs after the scalar turns nonzero. -/
theorem while_mode_spec {σ : Type} (n_steps : Nat)
    (stepFn : Nat → σ → σ × Int) (s0 : σ) :
    (whileRun n_steps stepFn s0).1 ≤ n_steps ∧
    (whileRun n_steps stepFn s0).2
      = stateAfter stepFn s0 (whileRun n_steps stepFn s0).1 ∧
    (0 < (whileRun n_steps stepFn s0).1 ↔ 0 < n_steps) ∧
    ∀ t : Nat, t + 1 < (whileRun n_steps stepFn s0).1 ↔
      (t < (whileRun n_steps stepFn s0).1 ∧ condAt stepFn s0 t = 0 ∧
        t + 1 < n_steps) := by
  have hrun : whileRun n_steps stepFn s0
      = (refRun stepFn s0 n_steps 0,
         stateAfter stepFn s0 (refRun stepFn s0 n_steps 0)) :=
    loopAux_eq stepFn s0 n_steps 0
  rw [hrun]
  refine ⟨?_, rfl, ?_, ?_⟩
  · have := refRun_le stepFn s0 n_steps 0
    omega
  · constructor
    · intro h
      by_contra hn
      have hz : n_steps = 0 := by omega
      subst hz
      exact absurd h (by rw [show refRun stepFn s0 0 0 = 0 from rfl]; omega)
    · intro h
      exact refRun_pos stepFn s0 n_steps 0 h
  · intro t
    have := refRun_iff stepFn s0 n_steps 0 t (by omega)
    rw [show (0 : Nat) + n_steps = n_steps by omega] at this
    exact this

/-- C2 (amended): a negative n_steps makes the loop run for |n_steps|
iterations — the budget is |n_steps| and, with no termination condition
(the continuation scalar never turns nonzero), the executed count equals
the budget — over fully reversed sequences, so iteration i reads entry
length - 1 - i of each plain sequence; this equals the entry a forward
run of |n_steps| steps reads at iteration |n_steps| - 1 - i exactly when
the sequence length equals |n_steps|; a non-negative n_steps reads entry
i. -/
theorem negative_steps_reverse {α : Type} (n_steps : Int) (seqs : List (List α))
    (m : Nat) (prepped : List (List α)) (d : α)
    (hok : setupSeqs n_steps seqs = .ok (m, prepped)) :
    m = n_steps.natAbs ∧
    (∀ (σ : Type) (stepFn : Nat → σ → σ × Int) (s0 : σ),
      (∀ j, condAt stepFn s0 j = 0) → (whileRun m stepFn s0).1 = m) ∧
    ∀ idx, idx < seqs.length → ∀ i, i < m →
      (n_steps < 0 → seqAt prepped idx i d
          = (seqs.getD idx []).getD ((seqs.getD idx []).length - 1 - i) d) ∧
      (0 ≤ n_steps → seqAt prepped idx i d = (seqs.getD idx []).getD i d) ∧
      (n_steps < 0 → (seqs.getD idx []).length = m →
        seqAt prepped idx i d = (seqs.getD idx []).getD (m - 1 - i) d) := by
  have hloop : ∀ (σ : Type) (stepFn : Nat → σ → σ × Int) (s0 : σ),
      (∀ j, condAt stepFn s0 j = 0) → (whileRun m stepFn s0).1 = m := by
    intro σ stepFn s0 hcond
    have h1 : whileRun m stepFn s0
        = (refRun stepFn s0 m 0, stateAfter stepFn s0 (refRun stepFn s0 m 0)) :=
      loopAux_eq stepFn s0 m 0
    rw [h1]
    show refRun stepFn s0 m 0 = m
    rw [refRun_all_zero stepFn s0 hcond m 0]
    omega
  unfold setupSeqs at hok
  by_cases hall : seqs.all (fun s => n_steps.natAbs ≤ s.length)
  · rw [if_pos hall] at hok
    simp only [List.all_eq_true, decide_eq_true_eq] at hall
    by_cases hneg : n_steps < 0
    · rw [if_pos hneg] at hok
      obtain ⟨hm, hp⟩ : m = n_steps.natAbs ∧ prepped = seqs.map List.reverse := by
        cases hok; exact ⟨rfl, rfl⟩
      subst hm; subst hp
      refine ⟨rfl, hloop, ?_⟩
      intro idx hidx i hi
      have hmem : seqs.getD idx [] ∈ seqs := by
        rw [List.getD_eq_getElem _ _ hidx]
        exact List.getElem_mem hidx
      have hilen : i < (seqs.getD idx []).length :=
        lt_of_lt_of_le hi (hall _ hmem)
      have h1 : (seqs.map List.reverse).getD idx [] = (seqs.getD idx []).reverse := by
        rw [List.getD_eq_getElem _ _ (by simpa using hidx), List.getElem_map,
            List.getD_eq_getElem _ _ hidx]
      have hrev : seqAt (seqs.map List.reverse) idx i d
          = (seqs.getD idx []).getD ((seqs.getD idx []).length - 1 - i) d := by
        unfold seqAt
        rw [h1]
        generalize hgen : seqs.getD idx [] = t at hilen ⊢
        rw [List.getD_eq_getElem?_getD, List.getD_eq_getElem?_getD,
            List.getElem?_reverse hilen]
      refine ⟨fun _ => hrev, fun hge => absurd hneg (not_lt.mpr hge), ?_⟩
      intro _ hlm
      rw [hrev, hlm]
    · rw [if_neg hneg] at hok
      obtain ⟨hm, hp⟩ : m = n_steps.natAbs ∧ prepped = seqs := by
        cases hok; exact ⟨rfl, rfl⟩
      subst hm; subst hp
      exact ⟨rfl, hloop, fun idx hidx i hi =>
        ⟨fun hlt => absurd hlt hneg, fun _ => rfl, fun hlt => absurd hlt hneg⟩⟩
  · rw [if_neg hall] at hok
    cases hok

theorem negative_steps_reverse_witness :
    (2 : Nat) = ((-2 : Int)).natAbs ∧
    (whileRun 2 (fun _ (s : Int) => (s, 0)) 0).1 = 2 ∧
    seqAt [[(30 : Int), 20, 10]] 0 0 0
      = ([[(10 : Int), 20, 30]].getD 0 []).getD
          (([[(10 : Int), 20, 30]].getD 0 []).length - 1 - 0) 0 := by
  have hok : setupSeqs (-2) [[(10 : Int), 20, 30]] = .ok (2, [[30, 20, 10]]) := rfl
  have h := negative_steps_reverse (-2) [[(10 : Int), 20, 30]] 2 [[30, 20, 10]] 0 hok
  exact ⟨h.1, h.2.1 Int (fun _ s => (s, 0)) 0 (fun j => rfl),
    (h.2.2 0 (by decide) 0 (by decide)).1 (by decide)⟩

/-- Number of steps the backward loop is invoked with (lines 1294-1297):
minimum(n_steps, truncate_gradient) when a truncation limit other than
the unlimited marker -1 is configured, n_steps itself otherwise. -/
def doSteps (truncate_gradient n_steps : Int) : Int :=
  if truncate_gradient ≠ -1 then min n_steps truncate_gradient else n_steps

/-- C6: with a truncation limit other than -1 the backward loop is
invoked with min(n_steps, truncate_gradient) steps; with the unlimited
marker -1 it is invoked with exactly the forward n_steps. -/
theorem truncate_gradient_steps (truncate_gradient n_steps : Int) :
    (truncate_gradient ≠ -1 →
      doSteps truncate_gradient n_steps = min n_steps truncate_gradient) ∧
    doSteps (-1) n_steps = n_steps := by
  constructor
  · intro h
    unfold doSteps
    rw [if_pos h]
  · unfold doSteps
    rw [if_neg (fun hh => hh rfl)]

theorem truncate_gradient_steps_witness :
    doSteps 5 20 = min 20 5 ∧ doSteps (-1) 20 = 20 :=
  ⟨(truncate_gradient_steps 5 20).1 (by decide),
   (truncate_gradient_steps (-1) 20).2⟩

/-- Backward channel counts chosen by Scan.grad (lines 1271-1292): every
forward MIT-MOT, MIT-SOT and SIT-SOT channel becomes a backward MIT-MOT
channel, and the backward loop declares no MIT-SOT and no SIT-SOT
channels: (n_mit_mot, n_mit_sot, n_sit_sot) of the backward config. -/
def gradCounts (n_mit_mot n_mit_sot n_sit_sot : Nat) : Nat × Nat × Nat :=
  (n_mit_mot + n_mit_sot + n_sit_sot, 0, 0)

/-- Backward tap structure built by Scan.grad (lines 1200-1254): the pair
(mit_mot_taps, mit_mot_out_slices) of the backward loop.  The MIT-MOT
block (lines 1200-1220) appends, per forward channel idx, the negated
write slices followed by the negated taps to mit_mot_taps[idx], and the
negated taps to mit_mot_out_slices[idx].  The MIT-SOT block
(lines 1222-1241) appends a fresh empty list to both tables, writes the
negated taps followed by a trailing 0 into mit_mot_taps[idx + offset],
but appends the negated taps to mit_mot_out_slices[idx] — the write at
line 1232 lacks the + offset that line 1230 uses.  The SIT-SOT block
(lines 1244-1254) appends taps [0, 1] and write slices [1]. -/
def buildGradInfo (n_mit_mot n_mit_sot n_sit_sot : Nat)
    (tap_array : List (List Int)) (mit_mot_out_slices : List (List Int)) :
    List (List Int) × List (List Int) :=
  let mmt0 := (List.range n_mit_mot).map (fun idx =>
    ((mit_mot_out_slices.getD idx []).map (fun s => -s))
      ++ ((tap_array.getD idx []).map (fun k => -k)))
  let mms0 := (List.range n_mit_mot).map (fun idx =>
    (tap_array.getD idx []).map (fun k => -k))
  let mmt1 := mmt0 ++ (List.range n_mit_sot).map (fun idx =>
    ((tap_array.getD (n_mit_mot + idx) []).map (fun k => -k)) ++ [0])
  let mms1 := (List.range n_mit_sot).foldl (fun acc idx =>
    acc.set idx ((acc.getD idx [])
      ++ (tap_array.getD (n_mit_mot + idx) []).map (fun k => -k)))
    (mms0 ++ (List.range n_mit_sot).map (fun _ => ([] : List Int)))
  (mmt1 ++ (List.range n_sit_sot).map (fun _ => ([0, 1] : List Int)),
   mms1 ++ (List.range n_sit_sot).map (fun _ => ([1] : List Int)))

/-- C5: evaluating the backward tap construction on a forward loop with
one MIT-MOT channel (taps [-1], write slices [1]) and one MIT-SOT
channel (taps [-2]) shows the slip at line 1232: the backward channel
derived from the MIT-SOT output gets backward taps [2, 0] but an empty
write-slice list — its negated offset 2 is appended to channel 0's
write slices instead (they become [1, 2]). -/
theorem grad_mit_sot_slice_misplaced :
    gradCounts 1 1 0 = (2, 0, 0) ∧
    buildGradInfo 1 1 0 [[-1], [-2]] [[1]]
      = ([[-1, 1], [2, 0]], [[1, 2], []]) ∧
    (2 : Int) ∉ (([[(1 : Int), 2], []] : List (List Int)).getD 1 []) := by
  refine ⟨rfl, by decide, by decide⟩

/-- Symbolic gradient expressions produced by Scan.grad for one inner
input: zeros_like masks, the previous-step carried gradient variable
(g_prev), the local gradient of one output with respect to one input,
and sums of contributions. -/
inductive GExpr where
  | zeros (inp : Nat) : GExpr
  | prev (inp : Nat) : GExpr
  | localGrad (out inp : Nat) : GExpr
  | add (a b : GExpr) : GExpr
deriving DecidableEq

/-- Per-output gradient list (lines 1046-1049 and 1103): for output dx,
entry i is the local gradient of output dx with respect to input i when
a gradient path exists (dep dx i), None otherwise. -/
def gradOuts (dep : Nat → Nat → Bool) (dx nIns : Nat) : List (Option GExpr) :=
  (List.range nIns).map (fun i =>
    if dep dx i then some (GExpr.localGrad dx i) else none)

/-- Seeding of inner_gfn_outs while the first output is processed
(lines 1104-1109): inputs with index at least n_seqs receive the
previous-step carried gradient variable, the others None. -/
def seedGfn (nSeqs nIns : Nat) : List (Option GExpr) :=
  (List.range nIns).map (fun i =>
    if i < nSeqs then none else some (GExpr.prev i))

/-- Summing step 7.4 (lines 1114-1120): combine the gradient x
contributed by the current output with the accumulated value y. -/
def combineGrad : Option GExpr → Option GExpr → Option GExpr
  | some x, some y => some (GExpr.add x y)
  | none, some y => some y
  | x, none => x

/-- Accumulation over the outputs dx = 0 .. nOuts - 1 (lines 1086-1120):
inner_gfn_outs starts empty, is seeded while the first output is
processed, and is then combined with every output's per-input
gradients. -/
def accumLoop (nSeqs nIns : Nat) (dep : Nat → Nat → Bool) : Nat → List (Option GExpr)
  | 0 => []
  | dx + 1 =>
    let acc := accumLoop nSeqs nIns dep dx
    List.zipWith combineGrad (gradOuts dep dx nIns)
      (if acc.isEmpty then seedGfn nSeqs nIns else acc)

/-- Step 8 masking (lines 1124-1126): any remaining None entry becomes an
explicit zeros_like of the corresponding differentiable input. -/
def buildGrads (nSeqs nIns nOuts : Nat) (dep : Nat → Nat → Bool) : List GExpr :=
  (List.range (accumLoop nSeqs nIns dep nOuts).length).map (fun i =>
    match (accumLoop nSeqs nIns dep nOuts).getD i none with
    | none => GExpr.zeros i
    | some e => e)

/-- Value of a gradient expression under valuations L for the local
gradients and pv for the carried previous-step gradients. -/
def evalG (L : Nat → Nat → Int) (pv : Nat → Int) : GExpr → Int
  | .zeros _ => 0
  | .prev i => pv i
  | .localGrad dx i => L dx i
  | .add a b => evalG L pv a + evalG L pv b

theorem getD_range_map {β : Type} (n : Nat) (f : Nat → β) (i : Nat)
    (hi : i < n) (d : β) : ((List.range n).map f).getD i d = f i := by
  rw [List.getD_eq_getElem?_getD, List.getElem?_map, List.getElem?_range hi]
  rfl

theorem zipWith_getD {β γ δ : Type} (f : β → γ → δ) (as : List β) (bs : List γ)
    (i : Nat) (da : β) (db : γ) (dd : δ)
    (ha : i < as.length) (hb : i < bs.length) :
    (List.zipWith f as bs).getD i dd = f (as.getD i da) (bs.getD i db) := by
  rw [List.getD_eq_getElem?_getD, List.getElem?_zipWith,
      List.getElem?_eq_getElem ha, List.getElem?_eq_getElem hb,
      List.getD_eq_getElem?_getD, List.getD_eq_getElem?_getD,
      List.getElem?_eq_getElem ha, List.getElem?_eq_getElem hb]
  rfl

theorem accumLoop_length (nSeqs nIns : Nat) (dep : Nat → Nat → Bool) :
    ∀ dx : Nat, (accumLoop nSeqs nIns dep (dx + 1)).length = nIns := by
  intro dx
  induction dx with
  | zero =>
    show (List.zipWith combineGrad (gradOuts dep 0 nIns)
      (if (accumLoop nSeqs nIns dep 0).isEmpty then seedGfn nSeqs nIns
       else accumLoop nSeqs nIns dep 0)).length = nIns
    rw [if_pos (show (accumLoop nSeqs nIns dep 0).isEmpty = true from rfl),
        List.length_zipWith]
    unfold gradOuts seedGfn
    rw [List.length_map, List.length_range, List.length_map, List.length_range]
    omega
  | succ dx ih =>
    show (List.zipWith combineGrad (gradOuts dep (dx + 1) nIns)
      (if (accumLoop nSeqs nIns dep (dx + 1)).isEmpty then seedGfn nSeqs nIns
       else accumLoop nSeqs nIns dep (dx + 1))).length = nIns
    rw [List.length_zipWith]
    have hlen2 : (if (accumLoop nSeqs nIns dep (dx + 1)).isEmpty then seedGfn nSeqs nIns
        else accumLoop nSeqs nIns dep (dx + 1)).length = nIns := by
      by_cases hemp : (accumLoop nSeqs nIns dep (dx + 1)).isEmpty
      · rw [if_pos hemp]
        unfold seedGfn
        rw [List.length_map, List.length_range]
      · rw [if_neg hemp]
        exact ih
    rw [hlen2]
    unfold gradOuts
    rw [List.length_map, List.length_range]
    omega

theorem accumLoop_spec (nSeqs nIns : Nat) (dep : Nat → Nat → Bool)
    (L : Nat → Nat → Int) (pv : Nat → Int) :
    ∀ dx : Nat, ∀ i, i < nIns →
      (((accumLoop nSeqs nIns dep (dx + 1)).getD i none = none) ↔
        (i < nSeqs ∧ ∀ d, d ≤ dx → dep d i = false)) ∧
      ((accumLoop nSeqs nIns dep (dx + 1)).getD i none).elim 0 (evalG L pv)
        = (if i < nSeqs then 0 else pv i)
          + ∑ d ∈ Finset.range (dx + 1), (if dep d i then L d i else 0) := by
  intro dx
  induction dx with
  | zero =>
    intro i hi
    have hg : (gradOuts dep 0 nIns).getD i none
        = if dep 0 i then some (GExpr.localGrad 0 i) else none := by
      unfold gradOuts
      exact getD_range_map nIns _ i hi none
    have hsd : (seedGfn nSeqs nIns).getD i none
        = if i < nSeqs then none else some (GExpr.prev i) := by
      unfold seedGfn
      exact getD_range_map nIns _ i hi none
    have hstep : (accumLoop nSeqs nIns dep 1).getD i none
        = combineGrad ((gradOuts dep 0 nIns).getD i none)
            ((seedGfn nSeqs nIns).getD i none) := by
      show (List.zipWith combineGrad (gradOuts dep 0 nIns)
        (if (accumLoop nSeqs nIns dep 0).isEmpty then seedGfn nSeqs nIns
         else accumLoop nSeqs nIns dep 0)).getD i none = _
      rw [if_pos (show (accumLoop nSeqs nIns dep 0).isEmpty = true from rfl)]
      apply zipWith_getD
      · unfold gradOuts
        rw [List.length_map, List.length_range]
        exact hi
      · unfold seedGfn
        rw [List.length_map, List.length_range]
        exact hi
    rw [hstep, hg, hsd]
    by_cases hdep : dep 0 i
    · rw [if_pos hdep]
      by_cases hsq : i < nSeqs
      · rw [if_pos hsq, if_pos hsq]
        constructor
        · constructor
          · intro hcontra
            cases hcontra
          · intro ⟨_, hall⟩
            rw [hall 0 (le_refl 0)] at hdep
            cases hdep
        · rw [Finset.sum_range_succ, Finset.sum_range_zero, if_pos hdep]
          show L 0 i = 0 + (0 + L 0 i)
          omega
      · rw [if_neg hsq, if_neg hsq]
        constructor
        · constructor
          · intro hcontra
            cases hcontra
          · intro ⟨hlt, _⟩
            exact absurd hlt hsq
        · rw [Finset.sum_range_succ, Finset.sum_range_zero, if_pos hdep]
          show L 0 i + pv i = pv i + (0 + L 0 i)
          omega
    · rw [if_neg hdep]
      by_cases hsq : i < nSeqs
      · rw [if_pos hsq, if_pos hsq]
        constructor
        · constructor
          · intro _
            refine ⟨hsq, fun d hd => ?_⟩
            have : d = 0 := by omega
            subst this
            simpa using hdep
          · intro _
            rfl
        · rw [Finset.sum_range_succ, Finset.sum_range_zero, if_neg hdep]
          show (0 : Int) = 0 + (0 + 0)
          omega
      · rw [if_neg hsq, if_neg hsq]
        constructor
        · constructor
          · intro hcontra
            cases hcontra
          · intro ⟨hlt, _⟩
            exact absurd hlt hsq
        · rw [Finset.sum_range_succ, Finset.sum_range_zero, if_neg hdep]
          show pv i = pv i + (0 + 0)
          omega
  | succ dx ih =>
    intro i hi
    obtain ⟨ihn, ihe⟩ := ih i hi
    have hlen : (accumLoop nSeqs nIns dep (dx + 1)).length = nIns :=
      accumLoop_length nSeqs nIns dep dx
    have hemp : (accumLoop nSeqs nIns dep (dx + 1)).isEmpty = false := by
      rw [List.isEmpty_eq_false_iff_exists_mem]
      have hne : accumLoop nSeqs nIns dep (dx + 1) ≠ [] := by
        intro hnil
        rw [hnil] at hlen
        simp at hlen
        omega
      exact List.exists_mem_of_ne_nil _ hne
    have hg : (gradOuts dep (dx + 1) nIns).getD i none
        = if dep (dx + 1) i then some (GExpr.localGrad (dx + 1) i) else none := by
      unfold gradOuts
      exact getD_range_map nIns _ i hi none
    have hstep : (accumLoop nSeqs nIns dep (dx + 2)).getD i none
        = combineGrad ((gradOuts dep (dx + 1) nIns).getD i none)
            ((accumLoop nSeqs nIns dep (dx + 1)).getD i none) := by
      show (List.zipWith combineGrad (gradOuts dep (dx + 1) nIns)
        (if (accumLoop nSeqs nIns dep (dx + 1)).isEmpty then seedGfn nSeqs nIns
         else accumLoop nSeqs nIns dep (dx + 1))).getD i none = _
      rw [hemp]
      show (List.zipWith combineGrad (gradOuts dep (dx + 1) nIns)
        (accumLoop nSeqs nIns dep (dx + 1))).getD i none = _
      apply zipWith_getD
      · unfold gradOuts
        rw [List.length_map, List.length_range]
        exact hi
      · rw [hlen]
        exact hi
    rw [hstep, hg]
    by_cases hdep : dep (dx + 1) i
    · rw [if_pos hdep]
      constructor
      · constructor
        · intro hcontra
          rcases hacc : (accumLoop nSeqs nIns dep (dx + 1)).getD i none with _ | e
          · rw [hacc] at hcontra
            cases hcontra
          · rw [hacc] at hcontra
            cases hcontra
        · intro ⟨_, hall⟩
          rw [hall (dx + 1) (le_refl _)] at hdep
          cases hdep
      · rcases hacc : (accumLoop nSeqs nIns dep (dx + 1)).getD i none with _ | e
        · rw [hacc] at ihn
          obtain ⟨hsq, hall⟩ := ihn.mp rfl
          rw [if_pos hsq]
          rw [Finset.sum_range_succ (fun d => if dep d i then L d i else 0) (dx + 1),
              if_pos hdep]
          have hsum0 : (∑ d ∈ Finset.range (dx + 1), (if dep d i then L d i else 0))
              = 0 :=
            Finset.sum_eq_zero (fun d hd => by
              rw [hall d (by simpa [Nat.lt_succ_iff] using hd)]
              rfl)
          rw [hsum0]
          show L (dx + 1) i = 0 + (0 + L (dx + 1) i)
          omega
        · rw [hacc] at ihe
          show evalG L pv (GExpr.add (GExpr.localGrad (dx + 1) i) e) = _
          rw [Finset.sum_range_succ (fun d => if dep d i then L d i else 0) (dx + 1),
              if_pos hdep]
          show evalG L pv (GExpr.localGrad (dx + 1) i) + evalG L pv e = _
          have : evalG L pv e = (if i < nSeqs then 0 else pv i)
              + ∑ d ∈ Finset.range (dx + 1), (if dep d i then L d i else 0) := ihe
          rw [this]
          show L (dx + 1) i + _ = _
          omega
    · rw [if_neg hdep]
      have hcomb : ∀ y : Option GExpr, combineGrad none y = y := by
        intro y
        cases y <;> rfl
      rw [hcomb]
      constructor
      · rw [ihn]
        constructor
        · intro ⟨hsq, hall⟩
          refine ⟨hsq, fun d hd => ?_⟩
          rcases Nat.lt_or_ge d (dx + 1) with hlt | hge
          · exact hall d (by omega)
          · have : d = dx + 1 := by omega
            subst this
            simpa using hdep
        · intro ⟨hsq, hall⟩
          exact ⟨hsq, fun d hd => hall d (by omega)⟩
      · rw [ihe, Finset.sum_range_succ (fun d => if dep d i then L d i else 0) (dx + 1),
            if_neg hdep]
        omega

/-- C7 counterexample: with no plain sequences, one differentiable tap
input and one output that depends on nothing, the input has no gradient
path from any output, yet the constructed gradient is the carried
previous-step variable g_prev — not an all-zeros gradient: under a
valuation assigning 1 to the carried variable it evaluates to 1, while a
zeros_like mask evaluates to 0. -/
theorem no_path_prev_counterexample :
    buildGrads 0 1 1 (fun _ _ => false) = [GExpr.prev 0] ∧
    evalG (fun _ _ => 0) (fun _ => 1) (GExpr.prev 0) = 1 ∧
    evalG (fun _ _ => 0) (fun _ => 1) (GExpr.zeros 0) = 0 ∧
    GExpr.prev 0 ≠ GExpr.zeros 0 := by
  refine ⟨rfl, rfl, rfl, by decide⟩

/-- C7 (amended): for every differentiable inner input, the constructed
backward gradient evaluates to the sum of the local-gradient
contributions of exactly those outputs that depend on it, plus — for the
non-sequence inputs (index at least n_seqs) — the carried previous-step
gradient variable the accumulator was seeded with.  A sequence input
(index below n_seqs) reached by no gradient path therefore receives an
explicit all-zeros gradient, while a no-path non-sequence input receives
the carried variable; no input is left with an absent marker. -/
theorem grad_sum_of_paths (nSeqs nIns nOuts : Nat) (dep : Nat → Nat → Bool)
    (L : Nat → Nat → Int) (pv : Nat → Int)
    (hOuts : 0 < nOuts) (i : Nat) (hi : i < nIns) :
    (buildGrads nSeqs nIns nOuts dep).length = nIns ∧
    evalG L pv ((buildGrads nSeqs nIns nOuts dep).getD i (GExpr.zeros 0))
      = (if i < nSeqs then 0 else pv i)
        + ∑ dx ∈ Finset.range nOuts, (if dep dx i then L dx i else 0) := by
  obtain ⟨dx, rfl⟩ : ∃ dx, nOuts = dx + 1 := ⟨nOuts - 1, by omega⟩
  have hlen : (accumLoop nSeqs nIns dep (dx + 1)).length = nIns :=
    accumLoop_length nSeqs nIns dep dx
  obtain ⟨hnone, heval⟩ := accumLoop_spec nSeqs nIns dep L pv dx i hi
  have hblen : (buildGrads nSeqs nIns (dx + 1) dep).length = nIns := by
    unfold buildGrads
    rw [List.length_map, List.length_range, hlen]
  refine ⟨hblen, ?_⟩
  have hbget : (buildGrads nSeqs nIns (dx + 1) dep).getD i (GExpr.zeros 0)
      = match (accumLoop nSeqs nIns dep (dx + 1)).getD i none with
        | none => GExpr.zeros i
        | some e => e := by
    unfold buildGrads
    exact getD_range_map _ _ i (by rw [hlen]; exact hi) _
  rw [hbget]
  rcases hacc : (accumLoop nSeqs nIns dep (dx + 1)).getD i none with _ | e
  · obtain ⟨hsq, hall⟩ := hnone.mp hacc
    show (0 : Int) = _
    rw [if_pos hsq, Finset.sum_eq_zero (fun d hd => by
      rw [hall d (by simpa [Nat.lt_succ_iff] using hd)]
      rfl)]
    omega
  · rw [hacc] at heval
    exact heval

theorem grad_sum_of_paths_witness :
    (buildGrads 1 3 2 (fun dx i => i = 0 ∨ (dx = 1 ∧ i = 2))).length = 3 ∧
    evalG (fun dx i => (10 : Int) * dx + i) (fun _ => 100)
        ((buildGrads 1 3 2 (fun dx i => i = 0 ∨ (dx = 1 ∧ i = 2))).getD 0 (GExpr.zeros 0))
      = (if 0 < 1 then 0 else 100)
        + ∑ dx ∈ Finset.range 2,
            (if (fun dx i => decide (i = 0 ∨ (dx = 1 ∧ i = 2))) dx 0
             then (10 : Int) * dx + 0 else 0) := by
  exact grad_sum_of_paths 1 3 2 _ _ _ (by decide) 0 (by decide)

end ScanOp
